import Mathlib

/-!
Formal model of the Portfolio NAV/Unitization engine and FIFO cost-basis
ledger of `core/services.py` (class `PortfolioEngineV3`).

Conventions of the shallow embedding:
* Python `Decimal`/`float` amounts are modelled as exact rationals (`ℚ`).
* Calendar dates are modelled as natural numbers counting days from an
  epoch that falls on a Monday, so `date.weekday()` becomes `d % 7`
  (Monday = 0, ..., Sunday = 6), matching Python's convention.
* Django querysets ordered by date are modelled as lists; per-ticker
  dictionaries are modelled as association lists that preserve insertion
  order, exactly like Python dicts.
* Network fetches (yfinance) are external I/O; the functions below take
  the post-fetch price/dividend tables as explicit inputs.
-/

namespace PortfolioV3

/-- Transaction types of the `TransactionLog` model. -/
inductive TxnType where
  | DEPOSIT
  | WITHDRAWAL
  | BUY
  | SELL
  | DIVIDEND
deriving DecidableEq, Repr

/-- Provenance of a transaction-log row (`source_type` column). -/
inductive SourceKind where
  | tradeSrc
  | cashSrc
  | divSrc
deriving DecidableEq, Repr

/-- One row of the `TransactionLog` table, as created by
`build_transaction_log`.  `ticker` is nullable for cash-only types. -/
structure TransactionRec where
  date : ℕ
  type : TxnType
  ticker : Option String
  shares : ℚ
  price : ℚ
  amount : ℚ
  commission : ℚ
  source_id : ℕ
  source_type : SourceKind
deriving DecidableEq, Repr

/-- Trade side of the `Trade` model. -/
inductive Side where
  | BUY
  | SELL
deriving DecidableEq, Repr

/-- One row of the `Trade` model. -/
structure TradeRec where
  id : ℕ
  ticker : String
  side : Side
  quantity : ℚ
  price : ℚ
  fees : ℚ
  date : ℕ
deriving DecidableEq, Repr

/-- Kind of a `CashTransaction` row. -/
inductive CashKind where
  | DEPOSIT
  | WITHDRAWAL
deriving DecidableEq, Repr

/-- One row of the `CashTransaction` model. -/
structure CashRec where
  id : ℕ
  kind : CashKind
  amount : ℚ
  date : ℕ
deriving DecidableEq, Repr

/-- One row of the `DividendHistory` model (per-share ex-dividend amount). -/
structure DividendRec where
  id : ℕ
  ticker : String
  date : ℕ
  amount : ℚ
deriving DecidableEq, Repr

/-- One row of the `PriceHistory` model. -/
structure PriceRec where
  ticker : String
  date : ℕ
  close_price : ℚ
deriving DecidableEq, Repr

/-- One row of the `DailySnapshot` model (the persisted performance record). -/
structure DailySnapshotRec where
  date : ℕ
  total_value : ℚ
  total_units : ℚ
  nav : ℚ
  cash_balance : ℚ
deriving DecidableEq, Repr

/-! ## Transaction log builder (`build_transaction_log`) -/

/-- The transaction-log row produced for one trade:
`trade_value = quantity * price`; BUY gives `amount = -trade_value - fees`,
SELL gives `amount = trade_value - fees`. -/
def tradeEntry (tr : TradeRec) : TransactionRec :=
  { date := tr.date
    type := match tr.side with | Side.BUY => TxnType.BUY | Side.SELL => TxnType.SELL
    ticker := some tr.ticker
    shares := tr.quantity
    price := tr.price
    amount := match tr.side with
      | Side.BUY => -(tr.quantity * tr.price) - tr.fees
      | Side.SELL => tr.quantity * tr.price - tr.fees
    commission := tr.fees
    source_id := tr.id
    source_type := SourceKind.tradeSrc }

/-- The transaction-log row produced for one cash movement:
DEPOSIT keeps the amount, WITHDRAWAL negates it. -/
def cashEntry (c : CashRec) : TransactionRec :=
  { date := c.date
    type := match c.kind with | CashKind.DEPOSIT => TxnType.DEPOSIT | CashKind.WITHDRAWAL => TxnType.WITHDRAWAL
    ticker := none
    shares := 0
    price := 0
    amount := match c.kind with | CashKind.DEPOSIT => c.amount | CashKind.WITHDRAWAL => -c.amount
    commission := 0
    source_id := c.id
    source_type := SourceKind.cashSrc }

/-- One trade of the ex-date share replay: a trade of `tkr` dated on or
before `d` adds its quantity for a BUY and subtracts it for a SELL. -/
def sharesStep (tkr : String) (d : ℕ) (s : ℚ) (tr : TradeRec) : ℚ :=
  if tr.ticker = tkr ∧ tr.date ≤ d then
    match tr.side with
    | Side.BUY => s + tr.quantity
    | Side.SELL => s - tr.quantity
  else s

/-- Shares of `tkr` held on date `d`: replay all trades for that ticker
dated on or before `d`, BUY adds the quantity and SELL subtracts it. -/
def shares_held_on (trades : List TradeRec) (tkr : String) (d : ℕ) : ℚ :=
  trades.foldl (sharesStep tkr d) 0

/-- The transaction-log row produced for one dividend event when
`s` shares were held on the ex-date. -/
def divEntry (dv : DividendRec) (s : ℚ) : TransactionRec :=
  { date := dv.date
    type := TxnType.DIVIDEND
    ticker := some dv.ticker
    shares := s
    price := dv.amount
    amount := s * dv.amount
    commission := 0
    source_id := dv.id
    source_type := SourceKind.divSrc }

/-- Dividend rows of the transaction log: only dividends of tickers that
were ever traded are considered, and an event is emitted only when the
shares held on the ex-date are strictly positive. -/
def dividendEntries (trades : List TradeRec) (divs : List DividendRec) : List TransactionRec :=
  (divs.filter (fun dv => dv.ticker ∈ trades.map (fun tr => tr.ticker))).filterMap
    (fun dv =>
      let s := shares_held_on trades dv.ticker dv.date
      if 0 < s then some (divEntry dv s) else none)

/-- `build_transaction_log`: trades, then cash movements, then dividends,
replacing any previous log for the same account wholesale. -/
def build_transaction_log (trades : List TradeRec) (cashTxns : List CashRec)
    (divs : List DividendRec) : List TransactionRec :=
  trades.map tradeEntry ++ cashTxns.map cashEntry ++ dividendEntries trades divs

/-! ## Holdings dictionaries

`holdings` is a Python dict `{ticker: shares}`; we model it as an
association list that preserves insertion order (new keys are appended). -/

/-- Value stored under key `k` (0 when absent; callers always ensure the
key exists before adding, mirroring the Python code). -/
def hget (h : List (String × ℚ)) (k : String) : ℚ :=
  match h.find? (fun p => p.1 = k) with
  | some p => p.2
  | none => 0

/-- Replace the value at key `k`, or append the key when absent. -/
def hset : List (String × ℚ) → String → ℚ → List (String × ℚ)
  | [], k, v => [(k, v)]
  | p :: rest, k, v => if p.1 = k then (k, v) :: rest else p :: hset rest k v

/-- Add `v` to the value stored at key `k` (`holdings[k] += v`). -/
def hadd (h : List (String × ℚ)) (k : String) (v : ℚ) : List (String × ℚ) :=
  hset h k (hget h k + v)

/-! ## Price lookup of `calculate_nav`

`calculate_nav` builds `price_lookup[ticker][date]` from all `PriceHistory`
rows in the inclusive window `[first_date, today]` and looks a price up by
exact date first, falling back to the most recent earlier date carrying a
price, else 0. -/

/-- Per-ticker date-indexed price table restricted to `[lo, hi]`. -/
def tickerPrices (prices : List PriceRec) (lo hi : ℕ) (tkr : String) : List (ℕ × ℚ) :=
  (prices.filter (fun p => p.ticker = tkr ∧ lo ≤ p.date ∧ p.date ≤ hi)).map
    (fun p => (p.date, p.close_price))

/-- Accumulator step selecting the entry with the greatest date `≤ d`. -/
def lobStep (d : ℕ) : Option (ℕ × ℚ) → (ℕ × ℚ) → Option (ℕ × ℚ)
  | none, q => if q.1 ≤ d then some q else none
  | some b, q => if q.1 ≤ d then (if b.1 < q.1 then some q else some b) else some b

/-- The entry with the greatest date `≤ d` (the first hit when scanning the
dates in descending order, as the Python loop does). -/
def latestOnOrBefore (pm : List (ℕ × ℚ)) (d : ℕ) : Option (ℕ × ℚ) :=
  pm.foldl (lobStep d) none

/-- Price used at mark-to-market: exact date match, else stale-price
carry-forward from the most recent earlier date, else 0. -/
def lookupPrice (pm : List (ℕ × ℚ)) (d : ℕ) : ℚ :=
  match pm.find? (fun q => q.1 = d) with
  | some q => q.2
  | none =>
    match latestOnOrBefore pm d with
    | some b => b.2
    | none => 0

/-- Step 3 of the per-day procedure: `total_value = Σ holdings[t] × price`,
skipping zero positions, with CASH valued at face. -/
def markToMarket (prices : List PriceRec) (lo hi : ℕ) (h : List (String × ℚ)) (d : ℕ) : ℚ :=
  h.foldl (fun acc p =>
    if p.2 = 0 then acc
    else if p.1 = "CASH" then acc + p.2
    else acc + p.2 * lookupPrice (tickerPrices prices lo hi p.1) d) 0

/-! ## External flows (step 5 of the per-day procedure) -/

/-- The state mutated while processing one day's external flows. -/
structure FlowState where
  total_units : ℚ
  current_nav : ℚ
  total_value : ℚ
  cash : ℚ
deriving DecidableEq, Repr

/-- Process one external flow.  DEPOSIT mints `amount / current_nav` units
(resetting a non-positive NAV to 100 first) and adds the amount to CASH and
to the total value; WITHDRAWAL redeems `abs(amount) / current_nav` units
only when `current_nav > 0`, and unconditionally subtracts `abs(amount)`
from CASH and from the total value. -/
def applyFlow (st : FlowState) (t : TransactionRec) : FlowState :=
  match t.type with
  | TxnType.DEPOSIT =>
    if 0 < st.current_nav then
      { st with
        total_units := st.total_units + t.amount / st.current_nav
        cash := st.cash + t.amount
        total_value := st.total_value + t.amount }
    else
      { total_units := st.total_units + t.amount / 100
        current_nav := 100
        cash := st.cash + t.amount
        total_value := st.total_value + t.amount }
  | TxnType.WITHDRAWAL =>
    let st1 := if 0 < st.current_nav then
        { st with total_units := st.total_units - |t.amount| / st.current_nav }
      else st
    { st1 with
      cash := st1.cash - |t.amount|
      total_value := st1.total_value - |t.amount| }
  | _ => st

/-- Process a day's external flows in order. -/
def processFlows (flows : List TransactionRec) (st : FlowState) : FlowState :=
  flows.foldl applyFlow st

/-! ## The per-day step of `calculate_nav` -/

/-- Steps 1 and 2 for one trade: ensure the ticker key exists, then BUY
subtracts `abs(amount)` from CASH and adds the shares, SELL adds the signed
amount to CASH and subtracts the shares. -/
def tradeStep (h : List (String × ℚ)) (t : TransactionRec) : List (String × ℚ) :=
  let tk := t.ticker.getD ""
  let h1 := if (h.find? (fun p => p.1 = tk)).isSome then h else h ++ [(tk, 0)]
  if t.type = TxnType.BUY then hadd (hadd h1 "CASH" (-|t.amount|)) tk t.shares
  else hadd (hadd h1 "CASH" t.amount) tk (-t.shares)

/-- Steps 1 and 2 of the per-day procedure: credit each dividend's cash
amount, then apply the day's trades. -/
def dayHoldingsAfterTrades (dayTxns : List TransactionRec) (h0 : List (String × ℚ)) :
    List (String × ℚ) :=
  ((dayTxns.filter (fun t => t.type = TxnType.BUY ∨ t.type = TxnType.SELL)).foldl
    tradeStep
    ((dayTxns.filter (fun t => t.type = TxnType.DIVIDEND)).foldl
      (fun h t => hadd h "CASH" t.amount) h0))

/-- The day's external flows, in log order. -/
def externalFlows (dayTxns : List TransactionRec) : List TransactionRec :=
  dayTxns.filter (fun t => t.type = TxnType.DEPOSIT ∨ t.type = TxnType.WITHDRAWAL)

/-- State carried across days by `calculate_nav`. -/
structure EngineState where
  total_units : ℚ
  current_nav : ℚ
  holdings : List (String × ℚ)
deriving DecidableEq, Repr

/-- One day of the `calculate_nav` loop: dividends, trades, mark-to-market,
NAV update, external flows, and the optional persisted snapshot (only when
`total_units > 0` after the flows). -/
def dayStep (prices : List PriceRec) (lo hi d : ℕ) (dayTxns : List TransactionRec)
    (st : EngineState) : EngineState × Option DailySnapshotRec :=
  let h2 := dayHoldingsAfterTrades dayTxns st.holdings
  let total_value := markToMarket prices lo hi h2 d
  let nav4 := if 0 < st.total_units then total_value / st.total_units else st.current_nav
  let fs := processFlows (externalFlows dayTxns) ⟨st.total_units, nav4, total_value, hget h2 "CASH"⟩
  (⟨fs.total_units, fs.current_nav, hset h2 "CASH" fs.cash⟩,
   if 0 < fs.total_units then
     some ⟨d, fs.total_value, fs.total_units, fs.current_nav, fs.cash⟩
   else none)

/-- Status of a `calculate_nav` run. -/
inductive NavStatus where
  | success
  | no_transactions
deriving DecidableEq, Repr

/-- Result record of `calculate_nav`. -/
structure NavResult where
  status : NavStatus
  days_calculated : ℕ
  final_nav : ℚ
  total_return_pct : ℚ
deriving DecidableEq, Repr

/-- Date of the earliest transaction (the date of the head of the log once
sorted ascending by date). -/
def minTxnDate : List TransactionRec → ℕ
  | [] => 0
  | t :: rest => rest.foldl (fun m x => min m x.date) t.date

/-- Full NAV recompute.  With an empty log it reports `no_transactions` and
leaves the existing snapshots untouched; otherwise it discards them and
replays day by day from the first transaction date through `today`,
persisting one snapshot per day with positive units. -/
def calculate_nav (txns : List TransactionRec) (prices : List PriceRec)
    (existing : List DailySnapshotRec) (today : ℕ) : NavResult × List DailySnapshotRec :=
  if txns.isEmpty then
    ({ status := NavStatus.no_transactions, days_calculated := 0
       final_nav := 100, total_return_pct := 0 }, existing)
  else
    let first := minTxnDate txns
    let res := (List.range' first (today + 1 - first)).foldl
      (fun (acc : EngineState × List DailySnapshotRec) d =>
        let s := dayStep prices first today d (txns.filter (fun t => t.date = d)) acc.1
        (s.1, match s.2 with | some snap => acc.2 ++ [snap] | none => acc.2))
      (⟨0, 100, [("CASH", 0)]⟩, [])
    ({ status := NavStatus.success
       days_calculated := res.2.length
       final_nav := if res.2.isEmpty then 100 else res.1.current_nav
       total_return_pct := match res.2.getLast? with
         | some s => (s.nav - 100) / 100 * 100
         | none => 0 }, res.2)

/-! ## FIFO cost-basis ledger (`get_closed_positions`, `get_current_holdings`)

Lots are held per ticker in acquisition order; SELLs consume from the
front. -/

/-- One FIFO lot: `[shares, cost_per_share, acquisition_date]`. -/
structure Lot where
  shares : ℚ
  cost_per_share : ℚ
  acq_date : ℕ
deriving DecidableEq, Repr

/-- Per-ticker closed-position aggregate accumulated while replaying sells. -/
structure ClosedAgg where
  shares_sold : ℚ
  total_proceeds : ℚ
  total_cost : ℚ
  first_buy : ℕ
  last_sell : ℕ
deriving DecidableEq, Repr

/-- Lookup in an insertion-ordered association list (a Python dict). -/
def aget {α : Type} (m : List (String × α)) (k : String) : Option α :=
  (m.find? (fun p => p.1 = k)).map Prod.snd

/-- Update/insert in an insertion-ordered association list. -/
def aset {α : Type} : List (String × α) → String → α → List (String × α)
  | [], k, v => [(k, v)]
  | p :: rest, k, v => if p.1 = k then (k, v) :: rest else p :: aset rest k v

/-- The `while shares_to_sell > 0 and lots` loop of `get_closed_positions`:
consume from the front lot; pop it entirely when its shares are at most the
remaining quantity, otherwise decrement it and stop.  The closed aggregate
is created at the first consumption (recording the front lot's acquisition
date as `first_buy`) and updated with shares, proceeds and cost basis. -/
def sellLoop (pps : ℚ) (selld : ℕ) : ℚ → List Lot → Option ClosedAgg →
    List Lot × Option ClosedAgg
  | _, [], cd => ([], cd)
  | q, lot :: rest, cd =>
    if q ≤ 0 then (lot :: rest, cd)
    else
      let cd0 := match cd with
        | some c => c
        | none => ⟨0, 0, 0, lot.acq_date, selld⟩
      if lot.shares ≤ q then
        sellLoop pps selld (q - lot.shares) rest
          (some ⟨cd0.shares_sold + lot.shares,
                 cd0.total_proceeds + lot.shares * pps,
                 cd0.total_cost + lot.shares * lot.cost_per_share,
                 cd0.first_buy, selld⟩)
      else
        ({ lot with shares := lot.shares - q } :: rest,
         some ⟨cd0.shares_sold + q,
               cd0.total_proceeds + q * pps,
               cd0.total_cost + q * lot.cost_per_share,
               cd0.first_buy, selld⟩)

/-- One transaction of the `get_closed_positions` replay: BUY pushes a lot
`[shares, abs(amount)/shares, date]` at the back of the ticker's queue,
SELL (of a ticker with a queue) runs `sellLoop`; other types are ignored. -/
def closedStep (acc : List (String × List Lot) × List (String × ClosedAgg))
    (t : TransactionRec) : List (String × List Lot) × List (String × ClosedAgg) :=
  match t.type, t.ticker with
  | TxnType.BUY, some tk =>
    let cps := if t.shares = 0 then 0 else |t.amount| / t.shares
    (aset acc.1 tk ((aget acc.1 tk).getD [] ++ [⟨t.shares, cps, t.date⟩]), acc.2)
  | TxnType.SELL, some tk =>
    match aget acc.1 tk with
    | none => acc
    | some tlots =>
      let pps := if t.shares = 0 then 0 else t.amount / t.shares
      let r := sellLoop pps t.date t.shares tlots (aget acc.2 tk)
      (aset acc.1 tk r.1,
       match r.2 with
       | some c => aset acc.2 tk c
       | none => acc.2)
  | _, _ => acc

/-- FIFO replay of the whole transaction log, returning the remaining open
lots and the closed-position aggregates per ticker. -/
def closedFold (txns : List TransactionRec) :
    List (String × List Lot) × List (String × ClosedAgg) :=
  txns.foldl closedStep ([], [])

/-- Total shares remaining in a list of lots. -/
def lotsTotal (l : List Lot) : ℚ :=
  l.foldl (fun a lot => a + lot.shares) 0

/-! ## Weekly chart sampling (`get_weekly_chart_data`) -/

/-- The sampling loop: keep a snapshot when no snapshot has been kept yet
or at least 7 days have elapsed since the last kept one. -/
def weeklyLoop : Option ℕ → List DailySnapshotRec → List DailySnapshotRec
  | _, [] => []
  | none, s :: rest => s :: weeklyLoop (some s.date) rest
  | some ld, s :: rest =>
    if 7 ≤ (s.date : ℤ) - (ld : ℤ) then s :: weeklyLoop (some s.date) rest
    else weeklyLoop (some ld) rest

/-- `get_weekly_chart_data` sampling: run the loop, then force-include the
final snapshot when the loop did not keep it.  (The chart arrays are then
point-wise images of this list.) -/
def weeklySample : List DailySnapshotRec → List DailySnapshotRec
  | [] => []
  | s :: rest =>
    let w := weeklyLoop none (s :: rest)
    let lastS := (s :: rest).getLast (List.cons_ne_nil s rest)
    if lastS ∈ w then w else w ++ [lastS]

/-- Modelled from the spec, for refinement comparison only: "keep a
snapshot whenever ≥7 days have elapsed since the last kept one", given the
date of the last kept snapshot. -/
def specWeeklyKeep (lastKept : ℕ) : List DailySnapshotRec → List DailySnapshotRec
  | [] => []
  | s :: rest =>
    if 7 ≤ (s.date : ℤ) - (lastKept : ℤ) then s :: specWeeklyKeep s.date rest
    else specWeeklyKeep lastKept rest

/-- Modelled from the spec, for refinement comparison only: always keep the
first snapshot, then keep whenever ≥7 days have elapsed since the last kept
one. -/
def specWeeklySample : List DailySnapshotRec → List DailySnapshotRec
  | [] => []
  | s :: rest => s :: specWeeklyKeep s.date rest

/-! ## Incremental end-of-day update (`incremental_eod_update`) -/

/-- `is_trading_day`: weekday strictly before Saturday.  With the Monday
epoch of this model, `d % 7` is Python's `weekday()`. -/
def is_trading_day (d : ℕ) : Bool :=
  d % 7 < 5

/-- Accumulator step selecting the snapshot with the greatest date. -/
def snapMaxStep : Option DailySnapshotRec → DailySnapshotRec → Option DailySnapshotRec
  | none, s => some s
  | some b, s => if b.date < s.date then some s else some b

/-- The snapshot with the greatest date strictly before `d`
(`filter(date__lt=d).order_by('-date').first()`). -/
def latestSnapshotBefore (store : List DailySnapshotRec) (d : ℕ) :
    Option DailySnapshotRec :=
  (store.filter (fun s => s.date < d)).foldl snapMaxStep none

/-- One transaction of the incremental replay.  Unlike `calculate_nav`,
units for each DEPOSIT/WITHDRAWAL are minted/redeemed at the NAV of the
nearest snapshot strictly before the transaction's date (100 when there is
none, or for a deposit into an empty portfolio). -/
def eodReplayStep (store : List DailySnapshotRec) (acc : ℚ × List (String × ℚ))
    (t : TransactionRec) : ℚ × List (String × ℚ) :=
  match t.type, t.ticker with
  | TxnType.DEPOSIT, _ =>
    let nav := if acc.1 = 0 then (100 : ℚ)
      else match latestSnapshotBefore store t.date with
        | some s => s.nav
        | none => 100
    (acc.1 + t.amount / nav, hadd acc.2 "CASH" t.amount)
  | TxnType.WITHDRAWAL, _ =>
    let nav := match latestSnapshotBefore store t.date with
      | some s => s.nav
      | none => 100
    (acc.1 - |t.amount| / nav, hadd acc.2 "CASH" (-|t.amount|))
  | TxnType.DIVIDEND, _ => (acc.1, hadd acc.2 "CASH" t.amount)
  | TxnType.BUY, some tk => (acc.1, hadd (hadd acc.2 "CASH" (-|t.amount|)) tk t.shares)
  | TxnType.SELL, some tk => (acc.1, hadd (hadd acc.2 "CASH" t.amount) tk (-t.shares))
  | _, _ => acc

/-- Accumulator step selecting the price row with the greatest date. -/
def priceMaxStep : Option PriceRec → PriceRec → Option PriceRec
  | none, p => some p
  | some b, p => if b.date < p.date then some p else some b

/-- Price used by the incremental mark-to-market: the exact `today` row,
else the latest row strictly before `today`, else none (the position then
contributes nothing). -/
def eodPrice (prices : List PriceRec) (tkr : String) (today : ℕ) : Option ℚ :=
  match prices.find? (fun p => p.ticker = tkr ∧ p.date = today) with
  | some p => some p.close_price
  | none =>
    ((prices.filter (fun p => p.ticker = tkr ∧ p.date < today)).foldl priceMaxStep none).map
      (fun p => p.close_price)

/-- `update_or_create` of today's snapshot: replace the row with the same
date, or append. -/
def upsertSnapshot (store : List DailySnapshotRec) (snap : DailySnapshotRec) :
    List DailySnapshotRec :=
  if store.any (fun s => s.date = snap.date) then
    store.map (fun s => if s.date = snap.date then snap else s)
  else store ++ [snap]

/-- Status of an `incremental_eod_update` run. -/
inductive EodStatus where
  | success
  | not_trading_day
  | no_previous_snapshot
deriving DecidableEq, Repr

/-- `incremental_eod_update`: a no-op on non-trading days; a distinct
failure when no snapshot dated strictly before today exists; otherwise a
full replay of the transaction log (with snapshot-NAV unit accounting),
mark-to-market at today's close prices, and an upsert of today's snapshot.
`prices` is the price table after the external close-price fetch. -/
def incremental_eod_update (today : ℕ) (txns : List TransactionRec)
    (prices : List PriceRec) (store : List DailySnapshotRec) :
    EodStatus × List DailySnapshotRec :=
  if ¬ is_trading_day today then (EodStatus.not_trading_day, store)
  else
    match latestSnapshotBefore store today with
    | none => (EodStatus.no_previous_snapshot, store)
    | some _ =>
      let r := txns.foldl (eodReplayStep store) (0, [("CASH", 0)])
      let cash := hget r.2 "CASH"
      let total_value := r.2.foldl (fun acc p =>
        if p.1 = "CASH" ∨ p.2 ≤ 0 then acc
        else match eodPrice prices p.1 today with
          | some px => acc + p.2 * px
          | none => acc) cash
      let nav := if 0 < r.1 then total_value / r.1 else 100
      (EodStatus.success, upsertSnapshot store ⟨today, total_value, r.1, nav, cash⟩)

/-! ## Helper lemmas -/

theorem applyFlow_preserves (st : FlowState) (t : TransactionRec)
    (hn : 0 < st.current_nav) (hinv : st.current_nav * st.total_units = st.total_value) :
    0 < (applyFlow st t).current_nav ∧
      (applyFlow st t).current_nav * (applyFlow st t).total_units =
        (applyFlow st t).total_value := by
  have hne : st.current_nav ≠ 0 := ne_of_gt hn
  cases ht : t.type
  case DEPOSIT =>
    simp only [applyFlow, ht, if_pos hn]
    refine ⟨hn, ?_⟩
    field_simp
    linarith [hinv]
  case WITHDRAWAL =>
    simp only [applyFlow, ht, if_pos hn]
    refine ⟨hn, ?_⟩
    field_simp
    linarith [hinv]
  all_goals simpa [applyFlow, ht] using ⟨hn, hinv⟩

theorem processFlows_preserves (flows : List TransactionRec) (st : FlowState)
    (hn : 0 < st.current_nav) (hinv : st.current_nav * st.total_units = st.total_value) :
    0 < (processFlows flows st).current_nav ∧
      (processFlows flows st).current_nav * (processFlows flows st).total_units =
        (processFlows flows st).total_value := by
  induction flows generalizing st with
  | nil => exact ⟨hn, hinv⟩
  | cons t rest ih =>
    have h := applyFlow_preserves st t hn hinv
    simpa [processFlows, List.foldl_cons] using ih (applyFlow st t) h.1 h.2

/-- C1 (amended): for any day of the NAV replay on which, after
mark-to-market and before external flows, both `total_units` and
`total_value` are strictly positive, the snapshot persisted for that day
satisfies `nav * total_units = total_value` exactly (so in particular
within any rounding tolerance). -/
theorem c1_snapshot_invariant (prices : List PriceRec) (lo hi d : ℕ)
    (dayTxns : List TransactionRec) (st : EngineState)
    (hU : 0 < st.total_units)
    (hV : 0 < markToMarket prices lo hi (dayHoldingsAfterTrades dayTxns st.holdings) d)
    (snap : DailySnapshotRec)
    (hsnap : (dayStep prices lo hi d dayTxns st).2 = some snap) :
    snap.nav * snap.total_units = snap.total_value := by
  have hne : st.total_units ≠ 0 := ne_of_gt hU
  set V := markToMarket prices lo hi (dayHoldingsAfterTrades dayTxns st.holdings) d with hV0
  have hinv : V / st.total_units * st.total_units = V := div_mul_cancel₀ V hne
  have h := processFlows_preserves (externalFlows dayTxns)
    ⟨st.total_units, V / st.total_units, V,
      hget (dayHoldingsAfterTrades dayTxns st.holdings) "CASH"⟩
    (div_pos hV hU) hinv
  simp only [dayStep, if_pos hU] at hsnap
  split at hsnap
  · cases hsnap
    exact h.2
  · cases hsnap

theorem c1_snapshot_invariant_witness :
    (0 : ℚ) < (⟨1, 100, [("CASH", 100)]⟩ : EngineState).total_units ∧
    (0 : ℚ) < markToMarket [] 0 0
      (dayHoldingsAfterTrades [] (⟨1, 100, [("CASH", 100)]⟩ : EngineState).holdings) 0 ∧
    (⟨0, 100, 1, 100, 100⟩ : DailySnapshotRec).nav *
      (⟨0, 100, 1, 100, 100⟩ : DailySnapshotRec).total_units =
      (⟨0, 100, 1, 100, 100⟩ : DailySnapshotRec).total_value := by
  refine ⟨by norm_num, by norm_num +decide [markToMarket, dayHoldingsAfterTrades], ?_⟩
  exact c1_snapshot_invariant [] 0 0 0 [] ⟨1, 100, [("CASH", 100)]⟩ (by norm_num)
    (by norm_num +decide [markToMarket, dayHoldingsAfterTrades]) _
    (by norm_num +decide [dayStep, dayHoldingsAfterTrades, markToMarket, hget, hset,
      processFlows, externalFlows])

/-- Counterexample to C1 as stated: a deposit, then a buy of a ticker with
no price history (silently valued 0) and a same-day withdrawal, leave a
persisted snapshot with `total_units = 1 > 0` but `nav * total_units = 0`
while `total_value = -50`: the invariant misses by 50, beyond any rounding
tolerance. -/
theorem c1_counterexample :
    (calculate_nav [⟨0, TxnType.DEPOSIT, none, 0, 0, 100, 0, 1, SourceKind.cashSrc⟩,
      ⟨1, TxnType.BUY, some "X", 1, 100, -100, 0, 2, SourceKind.tradeSrc⟩,
      ⟨1, TxnType.WITHDRAWAL, none, 0, 0, -50, 0, 3, SourceKind.cashSrc⟩] [] [] 1).2
      = [⟨0, 100, 1, 100, 100⟩, ⟨1, -50, 1, 0, -50⟩] ∧
    (0 : ℚ) < 1 ∧ |(0 : ℚ) * 1 - (-50)| = 50 := by
  have hr : List.range' 0 (1 + 1 - 0) = [0, 1] := by decide
  refine ⟨?_, by norm_num, by norm_num⟩
  norm_num +decide [calculate_nav, minTxnDate, hr, dayStep, dayHoldingsAfterTrades, tradeStep,
    markToMarket, lookupPrice, tickerPrices, latestOnOrBefore, processFlows, externalFlows,
    applyFlow, hget, hset, hadd]

/-- C4: every trade's transaction-log entry carries the signed amount
`-(quantity * price) - fees` for a BUY and `quantity * price - fees` for a
SELL; in particular a BUY of 10 shares at 50 with a 5 fee yields -505. -/
theorem c4_signed_amounts (trades : List TradeRec) (cashTxns : List CashRec)
    (divs : List DividendRec) (tr : TradeRec) (htr : tr ∈ trades) :
    tradeEntry tr ∈ build_transaction_log trades cashTxns divs ∧
    (tr.side = Side.BUY → (tradeEntry tr).amount = -(tr.quantity * tr.price) - tr.fees) ∧
    (tr.side = Side.SELL → (tradeEntry tr).amount = tr.quantity * tr.price - tr.fees) ∧
    (tradeEntry ⟨0, "A", Side.BUY, 10, 50, 5, 0⟩).amount = -505 := by
  refine ⟨?_, ?_, ?_, by norm_num [tradeEntry]⟩
  · exact List.mem_append_left _ (List.mem_append_left _ (List.mem_map_of_mem tradeEntry htr))
  · intro h
    simp [tradeEntry, h]
  · intro h
    simp [tradeEntry, h]

theorem c4_signed_amounts_witness :
    (⟨1, "A", Side.BUY, 10, 50, 5, 0⟩ : TradeRec) ∈ [(⟨1, "A", Side.BUY, 10, 50, 5, 0⟩ : TradeRec)] ∧
    tradeEntry ⟨1, "A", Side.BUY, 10, 50, 5, 0⟩ ∈
      build_transaction_log [⟨1, "A", Side.BUY, 10, 50, 5, 0⟩] [] [] := by
  refine ⟨List.mem_singleton_self _, ?_⟩
  exact (c4_signed_amounts [⟨1, "A", Side.BUY, 10, 50, 5, 0⟩] [] [] _
    (List.mem_singleton_self _)).1

theorem weeklyLoop_eq_specKeep (rest : List DailySnapshotRec) :
    ∀ ld, weeklyLoop (some ld) rest = specWeeklyKeep ld rest := by
  induction rest with
  | nil => intro ld; rfl
  | cons s r ih =>
    intro ld
    simp only [weeklyLoop, specWeeklyKeep]
    split
    · rw [ih]
    · rw [ih]

/-- C9: the weekly sampler agrees with the spec's greedy rule (always keep
the first snapshot, then keep whenever at least 7 days have elapsed since
the last kept one), and the chronologically last snapshot is always in the
output, force-included when the loop skipped it. -/
theorem c9_weekly_sampling (s : DailySnapshotRec) (rest : List DailySnapshotRec) :
    weeklyLoop none (s :: rest) = specWeeklySample (s :: rest) ∧
    s ∈ weeklySample (s :: rest) ∧
    (s :: rest).getLast (List.cons_ne_nil s rest) ∈ weeklySample (s :: rest) := by
  refine ⟨?_, ?_, ?_⟩
  · simp only [weeklyLoop, specWeeklySample, weeklyLoop_eq_specKeep]
  · simp only [weeklySample]
    split
    · simp [weeklyLoop]
    · exact List.mem_append_left _ (by simp [weeklyLoop])
  · simp only [weeklySample]
    split
    · assumption
    · exact List.mem_append_right _ (List.mem_singleton_self _)

theorem lob_aux_mem (d : ℕ) (pm : List (ℕ × ℚ)) :
    ∀ acc b, pm.foldl (lobStep d) acc = some b → acc = some b ∨ (b ∈ pm ∧ b.1 ≤ d) := by
  induction pm with
  | nil => exact fun acc b h => Or.inl h
  | cons q rest ih =>
    intro acc b h
    rw [List.foldl_cons] at h
    rcases ih _ b h with h1 | h1
    · rcases acc with _ | a
      · by_cases hq : q.1 ≤ d
        · simp only [lobStep, if_pos hq] at h1
          injection h1 with h2
          exact Or.inr ⟨by simp [h2], h2 ▸ hq⟩
        · simp only [lobStep, if_neg hq] at h1
          exact Option.noConfusion h1
      · by_cases hq : q.1 ≤ d
        · simp only [lobStep, if_pos hq] at h1
          by_cases hlt : a.1 < q.1
          · rw [if_pos hlt] at h1
            injection h1 with h2
            exact Or.inr ⟨by simp [h2], h2 ▸ hq⟩
          · rw [if_neg hlt] at h1
            exact Or.inl h1
        · simp only [lobStep, if_neg hq] at h1
          exact Or.inl h1
    · exact Or.inr ⟨List.mem_cons_of_mem _ h1.1, h1.2⟩

theorem lob_aux_ge (d : ℕ) (pm : List (ℕ × ℚ)) :
    ∀ a b, pm.foldl (lobStep d) (some a) = some b → a.1 ≤ b.1 := by
  induction pm with
  | nil =>
    intro a b h
    injection h with h2
    exact h2 ▸ le_refl _
  | cons q rest ih =>
    intro a b h
    rw [List.foldl_cons] at h
    by_cases hq : q.1 ≤ d
    · simp only [lobStep, if_pos hq] at h
      by_cases hlt : a.1 < q.1
      · rw [if_pos hlt] at h
        exact le_trans (le_of_lt hlt) (ih q b h)
      · rw [if_neg hlt] at h
        exact ih a b h
    · simp only [lobStep, if_neg hq] at h
      exact ih a b h

theorem lob_aux_max (d : ℕ) (pm : List (ℕ × ℚ)) :
    ∀ acc b x, x ∈ pm → x.1 ≤ d → pm.foldl (lobStep d) acc = some b → x.1 ≤ b.1 := by
  induction pm with
  | nil =>
    intro acc b x hx
    exact absurd hx (List.not_mem_nil x)
  | cons q rest ih =>
    intro acc b x hx hxd h
    rw [List.foldl_cons] at h
    rcases List.mem_cons.mp hx with rfl | hx'
    · rcases acc with _ | a
      · simp only [lobStep, if_pos hxd] at h
        exact lob_aux_ge d rest x b h
      · simp only [lobStep, if_pos hxd] at h
        by_cases hlt : a.1 < x.1
        · rw [if_pos hlt] at h
          exact lob_aux_ge d rest x b h
        · rw [if_neg hlt] at h
          exact le_trans (not_lt.mp hlt) (lob_aux_ge d rest a b h)
    · exact ih _ b x hx' hxd h

theorem lob_aux_ne_none (d : ℕ) (pm : List (ℕ × ℚ)) :
    ∀ a, pm.foldl (lobStep d) (some a) ≠ none := by
  induction pm with
  | nil => exact fun a h => Option.noConfusion h
  | cons q rest ih =>
    intro a h
    rw [List.foldl_cons] at h
    by_cases hq : q.1 ≤ d
    · simp only [lobStep, if_pos hq] at h
      by_cases hlt : a.1 < q.1
      · rw [if_pos hlt] at h
        exact ih q h
      · rw [if_neg hlt] at h
        exact ih a h
    · simp only [lobStep, if_neg hq] at h
      exact ih a h

theorem lob_none_iff (d : ℕ) (pm : List (ℕ × ℚ)) :
    latestOnOrBefore pm d = none ↔ ∀ q ∈ pm, ¬ q.1 ≤ d := by
  induction pm with
  | nil => simp [latestOnOrBefore]
  | cons q rest ih =>
    simp only [latestOnOrBefore, List.foldl_cons] at *
    by_cases hq : q.1 ≤ d
    · simp only [lobStep, if_pos hq]
      constructor
      · intro h
        exact absurd h (lob_aux_ne_none d rest q)
      · intro h
        exact absurd hq (h q (List.mem_cons_self q rest))
    · simp only [lobStep, if_neg hq]
      rw [ih]
      constructor
      · intro h x hx
        rcases List.mem_cons.mp hx with rfl | hx'
        · exact hq
        · exact h x hx'
      · intro h x hx
        exact h x (List.mem_cons_of_mem q hx)

/-- C2: the mark-to-market price lookup returns the exact-date price when
the table has one, else the price at the greatest earlier date carrying
one, else 0 (silently); and on a day with no external flows the NAV after
the day equals `total_value / total_units` when `total_units > 0` and is
left unchanged otherwise. -/
theorem c2_price_lookup_and_nav (pm : List (ℕ × ℚ)) (d d0 : ℕ) (v v0 : ℚ)
    (prices : List PriceRec) (lo hi dd : ℕ) (dayTxns : List TransactionRec)
    (st : EngineState) :
    ((pm.map Prod.fst).Nodup → (d, v) ∈ pm → lookupPrice pm d = v) ∧
    ((pm.map Prod.fst).Nodup → (∀ w : ℚ, (d, w) ∉ pm) → (d0, v0) ∈ pm → d0 ≤ d →
      (∀ q ∈ pm, q.1 ≤ d → q.1 ≤ d0) → lookupPrice pm d = v0) ∧
    ((∀ q ∈ pm, ¬ q.1 ≤ d) → lookupPrice pm d = 0) ∧
    (externalFlows dayTxns = [] →
      ((dayStep prices lo hi dd dayTxns st).1).current_nav =
        if 0 < st.total_units then
          markToMarket prices lo hi (dayHoldingsAfterTrades dayTxns st.holdings) dd /
            st.total_units
        else st.current_nav) := by
  refine ⟨?_, ?_, ?_, ?_⟩
  · intro hnd hmem
    obtain ⟨q, hq⟩ : ∃ q, pm.find? (fun q => q.1 = d) = some q := by
      cases hf : pm.find? (fun q => q.1 = d) with
      | none =>
        have := List.find?_eq_none.mp hf (d, v) hmem
        simp at this
      | some q => exact ⟨q, rfl⟩
    have hq1 : q.1 = d := by simpa using List.find?_some hq
    have hqm : q ∈ pm := List.mem_of_find?_eq_some hq
    have heq : q = (d, v) := List.inj_on_of_nodup_map hnd hqm hmem hq1
    simp only [lookupPrice, hq, heq]
  · intro hnd hno hmem hle hmax
    have hfind : pm.find? (fun q => q.1 = d) = none := by
      apply List.find?_eq_none.mpr
      intro x hx
      simp only [decide_eq_true_eq]
      intro hxd
      exact hno x.2 (by rw [← hxd]; exact hx)
    obtain ⟨b, hb⟩ : ∃ b, latestOnOrBefore pm d = some b := by
      cases hl : latestOnOrBefore pm d with
      | none => exact absurd hle ((lob_none_iff d pm).mp hl (d0, v0) hmem)
      | some b => exact ⟨b, rfl⟩
    have hbm : b ∈ pm ∧ b.1 ≤ d := by
      rcases lob_aux_mem d pm none b hb with h | h
      · exact Option.noConfusion h
      · exact h
    have hb1 : b.1 = d0 :=
      le_antisymm (hmax b hbm.1 hbm.2) (lob_aux_max d pm none b (d0, v0) hmem hle hb)
    have heq : b = (d0, v0) := List.inj_on_of_nodup_map hnd hbm.1 hmem hb1
    simp only [lookupPrice, hfind, hb, heq]
  · intro h
    have hfind : pm.find? (fun q => q.1 = d) = none := by
      apply List.find?_eq_none.mpr
      intro x hx
      simp only [decide_eq_true_eq]
      intro hxd
      exact h x hx (le_of_eq hxd)
    have hl : latestOnOrBefore pm d = none := (lob_none_iff d pm).mpr h
    simp only [lookupPrice, hfind, hl]
  · intro hflows
    simp only [dayStep, hflows, processFlows, List.foldl_nil]

theorem c2_price_lookup_and_nav_witness :
    lookupPrice [(1, 5), (3, 7)] 3 = 7 ∧
    lookupPrice [(1, 5), (3, 7)] 2 = 5 ∧
    lookupPrice [(1, 5), (3, 7)] 0 = 0 ∧
    ((dayStep [] 0 0 0 [] ⟨2, 50, [("CASH", 6)]⟩).1).current_nav =
      if (0 : ℚ) < 2 then
        markToMarket [] 0 0 (dayHoldingsAfterTrades [] [("CASH", 6)]) 0 / 2
      else 50 := by
  refine ⟨?_, ?_, ?_, ?_⟩
  · exact (c2_price_lookup_and_nav [(1, 5), (3, 7)] 3 0 7 0 [] 0 0 0 [] ⟨0, 0, []⟩).1
      (by simp) (by simp)
  · refine (c2_price_lookup_and_nav [(1, 5), (3, 7)] 2 1 0 5 [] 0 0 0 [] ⟨0, 0, []⟩).2.1
      (by simp) ?_ (by simp) (by norm_num) ?_
    · intro w
      simp
    · intro q hq hle
      simp at hq
      rcases hq with rfl | rfl
      · norm_num
      · exact absurd hle (by norm_num)
  · refine (c2_price_lookup_and_nav [(1, 5), (3, 7)] 0 0 0 0 [] 0 0 0 [] ⟨0, 0, []⟩).2.2.1 ?_
    intro q hq
    simp at hq
    rcases hq with rfl | rfl <;> norm_num
  · exact (c2_price_lookup_and_nav [] 0 0 0 0 [] 0 0 0 [] ⟨2, 50, [("CASH", 6)]⟩).2.2.2
      (by simp [externalFlows])

theorem lotsTotal_shift (l : List Lot) :
    ∀ a : ℚ, l.foldl (fun x lot => x + lot.shares) a = a + lotsTotal l := by
  induction l with
  | nil =>
    intro a
    simp [lotsTotal]
  | cons lot r ih =>
    intro a
    simp only [lotsTotal, List.foldl_cons]
    rw [ih (a + lot.shares), ih (0 + lot.shares)]
    ring

theorem lotsTotal_cons (lot : Lot) (r : List Lot) :
    lotsTotal (lot :: r) = lot.shares + lotsTotal r := by
  rw [show lotsTotal (lot :: r) =
    r.foldl (fun x l => x + l.shares) (0 + lot.shares) from rfl]
  rw [lotsTotal_shift r (0 + lot.shares)]
  ring

theorem lotsTotal_nonneg (l : List Lot) (h : ∀ x ∈ l, 0 ≤ x.shares) : 0 ≤ lotsTotal l := by
  induction l with
  | nil => simp [lotsTotal]
  | cons lot r ih =>
    rw [lotsTotal_cons]
    have h1 := h lot (List.mem_cons_self lot r)
    have h2 := ih (fun x hx => h x (List.mem_cons_of_mem _ hx))
    linarith

theorem sellLoop_total (pps : ℚ) (selld : ℕ) (lots : List Lot) :
    ∀ (q : ℚ) (cd : Option ClosedAgg), 0 ≤ q → (∀ x ∈ lots, 0 ≤ x.shares) →
      lotsTotal (sellLoop pps selld q lots cd).1 =
        lotsTotal lots - min q (lotsTotal lots) := by
  induction lots with
  | nil =>
    intro q cd hq _
    simp [sellLoop, lotsTotal, min_eq_right hq]
  | cons lot rest ih =>
    intro q cd hq hl
    have hs : 0 ≤ lot.shares := hl lot (List.mem_cons_self lot rest)
    have hrest : ∀ x ∈ rest, 0 ≤ x.shares := fun x hx => hl x (List.mem_cons_of_mem _ hx)
    have hTr : 0 ≤ lotsTotal rest := lotsTotal_nonneg rest hrest
    by_cases h0 : q ≤ 0
    · have hq0 : q = 0 := le_antisymm h0 hq
      simp only [sellLoop, if_pos h0]
      rw [lotsTotal_cons, hq0, min_eq_left (by linarith)]
      ring
    · simp only [sellLoop, if_neg h0]
      have hpos : 0 < q := lt_of_not_le h0
      by_cases hle : lot.shares ≤ q
      · rw [if_pos hle]
        rw [ih (q - lot.shares) _ (by linarith) hrest, lotsTotal_cons]
        rcases le_total (q - lot.shares) (lotsTotal rest) with hc | hc
        · rw [min_eq_left hc, min_eq_left (by linarith)]
          ring
        · rw [min_eq_right hc, min_eq_right (by linarith)]
          ring
      · rw [if_neg hle]
        push_neg at hle
        rw [lotsTotal_cons, lotsTotal_cons, min_eq_left (by linarith)]
        simp only []
        ring

/-- C3: a SELL consumes from the front (oldest) lot first, popping a lot
entirely when its shares are at most the remaining quantity and otherwise
decrementing the front lot; the consumed quantity is capped at the total
available shares (oversell is silently truncated, never creating a short
position), and on BUY 10 at 10, BUY 10 at 20, SELL 15 the realized cost is
exactly 200 with one remaining lot of 5 shares at cost 20. -/
theorem c3_fifo_sell (pps : ℚ) (selld : ℕ) (q : ℚ) (lots : List Lot)
    (cd : Option ClosedAgg) (hq : 0 ≤ q) (hl : ∀ x ∈ lots, 0 ≤ x.shares) :
    lotsTotal (sellLoop pps selld q lots cd).1 =
      lotsTotal lots - min q (lotsTotal lots) ∧
    0 ≤ lotsTotal (sellLoop pps selld q lots cd).1 ∧
    closedFold [⟨1, TxnType.BUY, some "X", 10, 10, -100, 0, 1, SourceKind.tradeSrc⟩,
      ⟨2, TxnType.BUY, some "X", 10, 20, -200, 0, 2, SourceKind.tradeSrc⟩,
      ⟨3, TxnType.SELL, some "X", 15, 30, 450, 0, 3, SourceKind.tradeSrc⟩]
      = ([("X", [⟨5, 20, 2⟩])], [("X", ⟨15, 450, 200, 1, 3⟩)]) := by
  have h1 := sellLoop_total pps selld lots q cd hq hl
  refine ⟨h1, ?_, ?_⟩
  · rw [h1]
    have := min_le_right q (lotsTotal lots)
    linarith
  · norm_num +decide [closedFold, closedStep, sellLoop, aget, aset]

theorem c3_fifo_sell_witness :
    (0 : ℚ) ≤ 15 ∧ (∀ x ∈ [(⟨10, 10, 1⟩ : Lot), ⟨10, 20, 2⟩], 0 ≤ x.shares) ∧
    lotsTotal (sellLoop 30 3 15 [⟨10, 10, 1⟩, ⟨10, 20, 2⟩] none).1 =
      lotsTotal [(⟨10, 10, 1⟩ : Lot), ⟨10, 20, 2⟩] -
        min 15 (lotsTotal [(⟨10, 10, 1⟩ : Lot), ⟨10, 20, 2⟩]) := by
  have hl : ∀ x ∈ [(⟨10, 10, 1⟩ : Lot), ⟨10, 20, 2⟩], 0 ≤ x.shares := by
    intro x hx
    simp at hx
    rcases hx with rfl | rfl <;> norm_num
  exact ⟨by norm_num, hl,
    (c3_fifo_sell 30 3 15 [⟨10, 10, 1⟩, ⟨10, 20, 2⟩] none (by norm_num) hl).1⟩

theorem shares_held_zero_of_not_traded (trades : List TradeRec) (tkr : String) (d : ℕ)
    (h : tkr ∉ trades.map (fun tr => tr.ticker)) : shares_held_on trades tkr d = 0 := by
  have aux : ∀ s : ℚ, trades.foldl (sharesStep tkr d) s = s := by
    induction trades with
    | nil => intro s; rfl
    | cons tr rest ih =>
      intro s
      simp only [List.map_cons, List.mem_cons] at h
      push_neg at h
      rw [List.foldl_cons]
      have hne : ¬ (tr.ticker = tkr ∧ tr.date ≤ d) := fun hc => h.1 hc.1.symm
      rw [show sharesStep tkr d s tr = s from by simp [sharesStep, hne]]
      exact (by
        have := ih
        simp only [List.map_cons, List.mem_cons] at *
        exact this (fun hm => h.2 hm) s)
  exact aux 0

/-- C5: a dividend event produces a DIVIDEND transaction with amount
`shares_held_on_ex_date * per_share_amount` exactly when the replayed share
count on the ex-date is strictly positive, and produces no transaction at
all when that count is not positive. -/
theorem c5_dividend_rule (trades : List TradeRec) (cashTxns : List CashRec)
    (divs : List DividendRec) (dv : DividendRec) (hdv : dv ∈ divs)
    (hids : (divs.map (fun x => x.id)).Nodup) :
    (0 < shares_held_on trades dv.ticker dv.date →
      divEntry dv (shares_held_on trades dv.ticker dv.date) ∈
        build_transaction_log trades cashTxns divs) ∧
    (divEntry dv (shares_held_on trades dv.ticker dv.date)).amount =
      shares_held_on trades dv.ticker dv.date * dv.amount ∧
    (shares_held_on trades dv.ticker dv.date ≤ 0 →
      ∀ e ∈ build_transaction_log trades cashTxns divs,
        e.type = TxnType.DIVIDEND → e.source_id ≠ dv.id) := by
  refine ⟨?_, rfl, ?_⟩
  · intro hpos
    apply List.mem_append_right
    apply List.mem_filterMap.mpr
    refine ⟨dv, ?_, ?_⟩
    · apply List.mem_filter.mpr
      refine ⟨hdv, ?_⟩
      have hmem : dv.ticker ∈ trades.map (fun tr => tr.ticker) := by
        by_contra hno
        rw [shares_held_zero_of_not_traded trades dv.ticker dv.date hno] at hpos
        exact lt_irrefl 0 hpos
      simpa using hmem
    · simp only [if_pos hpos]
  · intro hnp e he hty hid
    rcases List.mem_append.mp he with he1 | he2
    · rcases List.mem_append.mp he1 with ht | hc
      · obtain ⟨tr, _, rfl⟩ := List.mem_map.mp ht
        cases hs : tr.side <;> simp [tradeEntry, hs] at hty
      · obtain ⟨c, _, rfl⟩ := List.mem_map.mp hc
        cases hk : c.kind <;> simp [cashEntry, hk] at hty
    · obtain ⟨dv', hdv', hf⟩ := List.mem_filterMap.mp he2
      have hdvm : dv' ∈ divs := (List.mem_filter.mp hdv').1
      by_cases hpos' : 0 < shares_held_on trades dv'.ticker dv'.date
      · rw [if_pos hpos'] at hf
        injection hf with hf
        rw [← hf] at hid
        have : dv' = dv := List.inj_on_of_nodup_map hids hdvm hdv hid
        rw [this] at hpos'
        exact absurd hpos' (not_lt.mpr hnp)
      · rw [if_neg hpos'] at hf
        exact Option.noConfusion hf

theorem c5_dividend_rule_witness :
    (⟨7, "A", 2, 2⟩ : DividendRec) ∈ [(⟨7, "A", 2, 2⟩ : DividendRec)] ∧
    (([(⟨7, "A", 2, 2⟩ : DividendRec)]).map (fun x => x.id)).Nodup ∧
    (0 : ℚ) < shares_held_on [⟨1, "A", Side.BUY, 5, 10, 0, 1⟩] "A" 2 ∧
    divEntry ⟨7, "A", 2, 2⟩ (shares_held_on [⟨1, "A", Side.BUY, 5, 10, 0, 1⟩] "A" 2) ∈
      build_transaction_log [⟨1, "A", Side.BUY, 5, 10, 0, 1⟩] [] [⟨7, "A", 2, 2⟩] := by
  have hpos : (0 : ℚ) < shares_held_on [⟨1, "A", Side.BUY, 5, 10, 0, 1⟩] "A" 2 := by
    norm_num +decide [shares_held_on, sharesStep]
  exact ⟨List.mem_singleton_self _, by simp, hpos,
    (c5_dividend_rule [⟨1, "A", Side.BUY, 5, 10, 0, 1⟩] [] [⟨7, "A", 2, 2⟩] _
      (List.mem_singleton_self _) (by simp)).1 hpos⟩

/-- C6 (amended): a WITHDRAWAL processed while `current_nav > 0` redeems
`abs(amount) / current_nav` units and subtracts `abs(amount)` from CASH and
from the total value, with no clamping; while `current_nav ≤ 0` no units
are redeemed though cash and value are still reduced; and with a consistent
positive NAV a withdrawal larger than the total value drives `total_units`
negative. -/
theorem c6_withdrawal_step (st : FlowState) (t : TransactionRec)
    (ht : t.type = TxnType.WITHDRAWAL) :
    (0 < st.current_nav →
      applyFlow st t = ⟨st.total_units - |t.amount| / st.current_nav, st.current_nav,
        st.total_value - |t.amount|, st.cash - |t.amount|⟩) ∧
    (st.current_nav ≤ 0 →
      applyFlow st t = ⟨st.total_units, st.current_nav,
        st.total_value - |t.amount|, st.cash - |t.amount|⟩) ∧
    (0 < st.current_nav → st.current_nav * st.total_units = st.total_value →
      st.total_value < |t.amount| → (applyFlow st t).total_units < 0) := by
  refine ⟨?_, ?_, ?_⟩
  · intro hn
    simp [applyFlow, ht, if_pos hn]
  · intro hn
    simp [applyFlow, ht, if_neg (not_lt.mpr hn)]
  · intro hn hinv hlt
    simp only [applyFlow, ht, if_pos hn]
    rw [sub_neg, lt_div_iff₀ hn, mul_comm, hinv]
    exact hlt

theorem c6_withdrawal_step_witness :
    ((⟨0, TxnType.WITHDRAWAL, none, 0, 0, -10, 0, 1, SourceKind.cashSrc⟩ :
        TransactionRec).type = TxnType.WITHDRAWAL) ∧
    (0 : ℚ) < 100 ∧
    applyFlow ⟨1, 100, 100, 100⟩
        ⟨0, TxnType.WITHDRAWAL, none, 0, 0, -10, 0, 1, SourceKind.cashSrc⟩
      = ⟨1 - |(-10 : ℚ)| / 100, 100, 100 - |(-10 : ℚ)|, 100 - |(-10 : ℚ)|⟩ := by
  refine ⟨rfl, by norm_num, ?_⟩
  exact (c6_withdrawal_step ⟨1, 100, 100, 100⟩ _ rfl).1 (by norm_num)

/-- Counterexample to C6 as stated: after a deposit and a buy of a ticker
with no price history, the NAV at the external-flow step is -50; the
withdrawal of 10 then redeems nothing (its guard `current_nav > 0` fails),
so `total_units` stays 1 instead of the claimed
`1 - abs(-10) / (-50) = 6/5`. -/
theorem c6_counterexample :
    (calculate_nav [⟨0, TxnType.DEPOSIT, none, 0, 0, 100, 0, 1, SourceKind.cashSrc⟩,
      ⟨1, TxnType.BUY, some "X", 1, 150, -150, 0, 2, SourceKind.tradeSrc⟩,
      ⟨1, TxnType.WITHDRAWAL, none, 0, 0, -10, 0, 3, SourceKind.cashSrc⟩] [] [] 1).2
      = [⟨0, 100, 1, 100, 100⟩, ⟨1, -60, 1, -50, -60⟩] ∧
    (1 : ℚ) ≠ 1 - |(-10 : ℚ)| / (-50) := by
  have hr : List.range' 0 (1 + 1 - 0) = [0, 1] := by decide
  refine ⟨?_, by norm_num⟩
  norm_num +decide [calculate_nav, minTxnDate, hr, dayStep, dayHoldingsAfterTrades, tradeStep,
    markToMarket, lookupPrice, tickerPrices, latestOnOrBefore, lobStep, processFlows,
    externalFlows, applyFlow, hget, hset, hadd]

/-- C7 (amended): on a day whose only transactions are a deposit of `D` and
then a withdrawal of `D`, with no trades and no price movement and a
positive prevailing NAV, the day leaves `total_units` exactly at its
pre-deposit value and the NAV unchanged. -/
theorem c7_deposit_withdraw_symmetry (prices : List PriceRec) (lo hi d : ℕ)
    (st : EngineState) (D : ℚ) (dep wd : TransactionRec)
    (hdep : dep.type = TxnType.DEPOSIT) (hdepa : dep.amount = D)
    (hwd : wd.type = TxnType.WITHDRAWAL) (hwda : wd.amount = -D) (hD : 0 ≤ D)
    (hU : 0 < st.total_units) (hnav : 0 < st.current_nav)
    (hmark : markToMarket prices lo hi st.holdings d = st.current_nav * st.total_units) :
    ((dayStep prices lo hi d [dep, wd] st).1).total_units = st.total_units ∧
    ((dayStep prices lo hi d [dep, wd] st).1).current_nav = st.current_nav := by
  have hne : st.total_units ≠ 0 := ne_of_gt hU
  have hdiv : dayHoldingsAfterTrades [dep, wd] st.holdings = st.holdings := by
    simp [dayHoldingsAfterTrades, List.filter_cons, List.filter_nil, hdep, hwd]
  have hflows : externalFlows [dep, wd] = [dep, wd] := by
    simp [externalFlows, List.filter_cons, List.filter_nil, hdep, hwd]
  simp only [dayStep, hdiv, hflows, hmark, if_pos hU]
  rw [mul_div_cancel_right₀ st.current_nav hne]
  simp only [processFlows, List.foldl_cons, List.foldl_nil]
  simp only [applyFlow, hdep, hwd, hdepa, hwda, if_pos hnav]
  constructor
  · rw [abs_neg, abs_of_nonneg hD]
    ring
  · trivial

theorem c7_deposit_withdraw_symmetry_witness :
    ((⟨0, TxnType.DEPOSIT, none, 0, 0, 5, 0, 1, SourceKind.cashSrc⟩ :
        TransactionRec).type = TxnType.DEPOSIT) ∧
    ((⟨0, TxnType.WITHDRAWAL, none, 0, 0, -5, 0, 2, SourceKind.cashSrc⟩ :
        TransactionRec).type = TxnType.WITHDRAWAL) ∧
    (0 : ℚ) ≤ 5 ∧ (0 : ℚ) < 1 ∧ (0 : ℚ) < 100 ∧
    markToMarket [] 0 0 [("CASH", 100)] 0 = 100 * 1 ∧
    ((dayStep [] 0 0 0 [⟨0, TxnType.DEPOSIT, none, 0, 0, 5, 0, 1, SourceKind.cashSrc⟩,
        ⟨0, TxnType.WITHDRAWAL, none, 0, 0, -5, 0, 2, SourceKind.cashSrc⟩]
        ⟨1, 100, [("CASH", 100)]⟩).1).total_units = 1 := by
  refine ⟨rfl, rfl, by norm_num, by norm_num, by norm_num,
    by norm_num +decide [markToMarket], ?_⟩
  exact (c7_deposit_withdraw_symmetry [] 0 0 0 ⟨1, 100, [("CASH", 100)]⟩ 5 _ _
    rfl rfl rfl rfl (by norm_num) (by norm_num) (by norm_num)
    (by norm_num +decide [markToMarket])).1

/-- Counterexample to C7 as stated: with positive units but a negative
prevailing NAV (the portfolio holds an unpriced ticker bought on margin),
a same-day deposit and withdrawal of 10 leave `total_units` at 1 but reset
the NAV from -50 to 100: the deposit's non-positive-NAV branch reseeds the
NAV, so "nav is unchanged" fails. -/
theorem c7_counterexample :
    (calculate_nav [⟨0, TxnType.DEPOSIT, none, 0, 0, 100, 0, 1, SourceKind.cashSrc⟩,
      ⟨1, TxnType.BUY, some "X", 1, 150, -150, 0, 2, SourceKind.tradeSrc⟩,
      ⟨2, TxnType.DEPOSIT, none, 0, 0, 10, 0, 3, SourceKind.cashSrc⟩,
      ⟨2, TxnType.WITHDRAWAL, none, 0, 0, -10, 0, 4, SourceKind.cashSrc⟩] [] [] 2).2
      = [⟨0, 100, 1, 100, 100⟩, ⟨1, -50, 1, -50, -50⟩, ⟨2, -50, 1, 100, -50⟩] ∧
    ((-50 : ℚ) ≠ 100) := by
  have hr : List.range' 0 (2 + 1 - 0) = [0, 1, 2] := by decide
  refine ⟨?_, by norm_num⟩
  norm_num +decide [calculate_nav, minTxnDate, hr, dayStep, dayHoldingsAfterTrades, tradeStep,
    markToMarket, lookupPrice, tickerPrices, latestOnOrBefore, lobStep, processFlows,
    externalFlows, applyFlow, hget, hset, hadd]

theorem snapFold_ne_none (l : List DailySnapshotRec) :
    ∀ a, l.foldl snapMaxStep (some a) ≠ none := by
  induction l with
  | nil => exact fun a h => Option.noConfusion h
  | cons s r ih =>
    intro a h
    rw [List.foldl_cons] at h
    simp only [snapMaxStep] at h
    by_cases hlt : a.date < s.date
    · rw [if_pos hlt] at h
      exact ih s h
    · rw [if_neg hlt] at h
      exact ih a h

theorem latestSnapshotBefore_eq_none_iff (store : List DailySnapshotRec) (d : ℕ) :
    latestSnapshotBefore store d = none ↔ ∀ s ∈ store, ¬ s.date < d := by
  unfold latestSnapshotBefore
  constructor
  · intro h s hs hlt
    have hmem : s ∈ store.filter (fun x => decide (x.date < d)) :=
      List.mem_filter.mpr ⟨hs, by simpa using hlt⟩
    cases hf : store.filter (fun x => decide (x.date < d)) with
    | nil =>
      rw [hf] at hmem
      exact absurd hmem (List.not_mem_nil s)
    | cons x xs =>
      rw [hf, List.foldl_cons] at h
      simp only [snapMaxStep] at h
      exact snapFold_ne_none xs x h
  · intro h
    have hfil : store.filter (fun x => decide (x.date < d)) = [] := by
      apply List.filter_eq_nil_iff.mpr
      intro x hx
      simpa using h x hx
    rw [hfil]
    rfl

theorem latestSnapshotBefore_mem (store : List DailySnapshotRec) (d : ℕ)
    (b : DailySnapshotRec) (h : latestSnapshotBefore store d = some b) :
    b ∈ store ∧ b.date < d := by
  have aux : ∀ (l : List DailySnapshotRec) acc b, l.foldl snapMaxStep acc = some b →
      acc = some b ∨ b ∈ l := by
    intro l
    induction l with
    | nil => exact fun acc b h => Or.inl h
    | cons s r ih =>
      intro acc b h
      rw [List.foldl_cons] at h
      rcases ih _ b h with h1 | h1
      · rcases acc with _ | a
        · simp only [snapMaxStep] at h1
          injection h1 with h2
          exact Or.inr (by simp [h2])
        · simp only [snapMaxStep] at h1
          by_cases hlt : a.date < s.date
          · rw [if_pos hlt] at h1
            injection h1 with h2
            exact Or.inr (by simp [h2])
          · rw [if_neg hlt] at h1
            exact Or.inl h1
      · exact Or.inr (List.mem_cons_of_mem _ h1)
  unfold latestSnapshotBefore at h
  rcases aux _ _ _ h with h1 | h1
  · exact Option.noConfusion h1
  · have hm := List.mem_filter.mp h1
    exact ⟨hm.1, by simpa using hm.2⟩

/-- C8: the incremental end-of-day update is a no-op returning the
`not_trading_day` status when today's weekday is Saturday or Sunday;
on a trading day with no snapshot dated strictly before today it returns
the distinct `no_previous_snapshot` result, leaving the store unchanged;
and it changes the snapshot store only when both guards pass. -/
theorem c8_eod_guards (today : ℕ) (txns : List TransactionRec) (prices : List PriceRec)
    (store : List DailySnapshotRec) :
    (is_trading_day today = false ↔ today % 7 = 5 ∨ today % 7 = 6) ∧
    (is_trading_day today = false →
      incremental_eod_update today txns prices store = (EodStatus.not_trading_day, store)) ∧
    (latestSnapshotBefore store today = none ↔ ∀ s ∈ store, ¬ s.date < today) ∧
    (is_trading_day today = true → latestSnapshotBefore store today = none →
      incremental_eod_update today txns prices store =
        (EodStatus.no_previous_snapshot, store)) ∧
    ((incremental_eod_update today txns prices store).2 ≠ store →
      is_trading_day today = true ∧ ∃ s ∈ store, s.date < today) := by
  refine ⟨?_, ?_, latestSnapshotBefore_eq_none_iff store today, ?_, ?_⟩
  · simp only [is_trading_day, decide_eq_false_iff_not, not_lt]
    omega
  · intro h
    simp [incremental_eod_update, h]
  · intro ht hn
    simp [incremental_eod_update, ht, hn]
  · intro hne
    cases htd : is_trading_day today with
    | false =>
      exfalso
      apply hne
      simp [incremental_eod_update, htd]
    | true =>
      refine ⟨rfl, ?_⟩
      cases hls : latestSnapshotBefore store today with
      | none =>
        exfalso
        apply hne
        simp [incremental_eod_update, htd, hls]
      | some b =>
        obtain ⟨hm, hd⟩ := latestSnapshotBefore_mem store today b hls
        exact ⟨b, hm, hd⟩

theorem c8_eod_guards_witness :
    is_trading_day 5 = false ∧
    incremental_eod_update 5 [] [] [] = (EodStatus.not_trading_day, []) ∧
    is_trading_day 2 = true ∧ latestSnapshotBefore [] 2 = none ∧
    incremental_eod_update 2 [] [] [] = (EodStatus.no_previous_snapshot, []) := by
  refine ⟨rfl, ?_, rfl, rfl, ?_⟩
  · exact (c8_eod_guards 5 [] [] []).2.1 rfl
  · exact (c8_eod_guards 2 [] [] []).2.2.2.1 rfl rfl

/-- C10: with an empty transaction log, `calculate_nav` reports the
`no_transactions` failure status and the previously persisted snapshots are
returned unchanged (the destructive delete-and-rebuild is only reached
after the emptiness check). -/
theorem c10_empty_log (prices : List PriceRec) (existing : List DailySnapshotRec) (today : ℕ) :
    (calculate_nav [] prices existing today).1.status = NavStatus.no_transactions ∧
    (calculate_nav [] prices existing today).2 = existing := by
  constructor <;> simp [calculate_nav]

end PortfolioV3
